import Mathlib

/-!
Verification of the Sortify core (`app/sorter.py`).

The filesystem is shallowly embedded: an absolute, fully resolved path is a
list of path segments (`Path := List String`); `Path.resolve()` from the
source is the identity on this representation (no symlinks and no `..`
segments are modelled, matching the spec's "canonicalize once, compare
canonical forms").  A filesystem state `FS` is the list of regular-file
paths together with a list of directory paths; a path is a directory when
it is listed in `dirs` or is a (proper) prefix of a recorded file or
directory, so directories are implicitly closed under taking parents, as
on a real filesystem.

Python exceptions (`SystemExit`, `FileExistsError` from `mkdir`,
`FileNotFoundError` from `shutil.move`) are embedded as `Except FS`: a
failing operation returns `Except.error fs` carrying the filesystem state
at the moment the exception is raised, so "fails before any mutation" is
expressible as `= .error fs` with the original state.

`os.walk` is embedded as a fuel-indexed recursion (`iterFromN`); the fuel
`maxLen fs + 1` is one more than the length of the longest recorded path,
which is enough to reach every directory that can contain a file, so the
embedded traversal is a total function.

The unbounded `while True` search of `safe_destination` is embedded with
fuel `fs.files.length + fs.dirs.length + 1` and returns an `Option`; a
`none` result models non-termination of the source loop, which cannot
happen on a real (finite) filesystem.
-/

deriving instance DecidableEq for Except

namespace Sortify

/-- A resolved absolute path, as a list of path segments. -/
abbrev Path := List String

/-- Index of the last `'.'` in a list of characters (Python `str.rfind('.')`,
restricted to the information `pathlib` uses). -/
def lastDotIdx : List Char → Option Nat
  | [] => none
  | c :: cs =>
    match lastDotIdx cs with
    | some i => some (i + 1)
    | none => if c = '.' then some 0 else none

/-- `pathlib.PurePath.suffix` of a file name: `name[i:]` where `i = name.rfind('.')`,
when `0 < i < len(name) - 1`, and `""` otherwise. -/
def pySuffix (name : String) : String :=
  match lastDotIdx name.toList with
  | none => ""
  | some i =>
    if 0 < i ∧ i < name.toList.length - 1 then String.mk (name.toList.drop i) else ""

/-- `pathlib.PurePath.stem` of a file name: `name[:i]` where `i = name.rfind('.')`,
when `0 < i < len(name) - 1`, and the whole name otherwise. -/
def pyStem (name : String) : String :=
  match lastDotIdx name.toList with
  | none => name
  | some i =>
    if 0 < i ∧ i < name.toList.length - 1 then String.mk (name.toList.take i) else name

/-- Python `str.lower()`, on the character list (ASCII case folding, which
covers every name these claims mention). -/
def pyLower (s : String) : String :=
  String.mk (s.toList.map Char.toLower)

/-- Python `str.startswith(pre)`. -/
def pyStartsWith (s pre : String) : Bool :=
  pre.toList.isPrefixOf s.toList

/-- Python `str.lstrip(".")`: drop every leading `'.'`. -/
def lstripDots (s : String) : String :=
  String.mk (s.toList.dropWhile (fun c => c = '.'))

/-- `src.suffix.lower().lstrip(".") or "no_ext"`: the extension bucket key
of a file name (sorter.py line 119 and lines 93-94). -/
def extKey (name : String) : String :=
  let e := lstripDots (pyLower (pySuffix name))
  if e = "" then "no_ext" else e

/-- `DEFAULT_CODE_EXTENSIONS` (sorter.py lines 9-22); a set in the source,
used only for membership tests. -/
def DEFAULT_CODE_EXTENSIONS : List String :=
  [".py", ".ipynb", ".pyc", ".pyo",
   ".html", ".css", ".js", ".jsx", ".ts", ".tsx",
   ".java", ".c", ".cpp", ".h", ".hpp", ".cs",
   ".sh", ".bash", ".ps1", ".bat",
   ".json", ".yaml", ".yml", ".xml",
   ".go", ".rs", ".rb", ".php", ".swift", ".kt", ".kts"]

/-- `is_relative_to_path(candidate, other)` (sorter.py lines 25-30):
`candidate.relative_to(other)` succeeds exactly when `other` is a
segment-wise prefix of `candidate` (both already resolved). -/
def is_relative_to_path (candidate other : Path) : Bool :=
  other.isPrefixOf candidate

/-- A filesystem state: the regular files and the directories.  A path is a
directory when it is a prefix of a recorded directory or a proper prefix of
a recorded file, so parents of recorded paths exist implicitly. -/
structure FS where
  files : List Path
  dirs : List Path
deriving DecidableEq, Repr

/-- `p.is_dir()` / the existence of `p` as a directory. -/
def isDirB (fs : FS) (p : Path) : Bool :=
  fs.dirs.any (fun q => p.isPrefixOf q) ||
  fs.files.any (fun q => p.isPrefixOf q && !(p == q))

/-- `p.exists()`: `p` is a regular file or a directory. -/
def existsPath (fs : FS) (p : Path) : Bool :=
  fs.files.contains p || isDirB fs p

/-- `p.mkdir(parents=True, exist_ok=True)`: a no-op when `p` is already a
directory, an error when `p` or one of its ancestors exists as a regular
file, and otherwise records `p` (hence implicitly all its parents) as a
directory. -/
def mkdirParents (fs : FS) (p : Path) : Except FS FS :=
  if isDirB fs p then .ok fs
  else if fs.files.any (fun q => q.isPrefixOf p) then .error fs
  else .ok ⟨fs.files, p :: fs.dirs⟩

/-- The `dest_dir` field of `SortConfig`: an absolute path, or a path
relative to the root (sorter.py lines 48-53). -/
inductive DestDirKind where
  | abs (p : Path)
  | rel (p : Path)
deriving DecidableEq, Repr

/-- `SortConfig` (sorter.py lines 33-53). -/
structure SortConfig where
  root : Path
  dest_dir : DestDirKind := .rel []
  include_dotfiles : Bool := false
  include_code : Bool := false
  dry_run : Bool := false
  interactive : Bool := false
deriving DecidableEq, Repr

/-- `SortConfig.destination_root`: resolve `dest_dir` against the root when
it is relative (sorter.py lines 48-53). -/
def SortConfig.destination_root (cfg : SortConfig) : Path :=
  match cfg.dest_dir with
  | .abs p => p
  | .rel p => cfg.root ++ p

/-- The names of the regular files directly inside directory `d`
(the `filenames` component of `os.walk`). -/
def filesIn (fs : FS) (d : Path) : List String :=
  fs.files.filterMap fun p => if p.dropLast = d then p.getLast? else none

/-- The names of the subdirectories of `d` (the `dirnames` component of
`os.walk`): the next segment of any recorded path that descends through
`d`. -/
def childDirs (fs : FS) (d : Path) : List String :=
  ((fs.files.filterMap fun p =>
      if d.isPrefixOf p && decide (d.length + 1 < p.length) then p[d.length]? else none) ++
   (fs.dirs.filterMap fun p =>
      if d.isPrefixOf p && decide (d.length < p.length) then p[d.length]? else none)).dedup

/-- The in-place pruning of `dirnames` (sorter.py lines 73-80): when the
destination is not the root, drop every subdirectory that is the
destination root or lies underneath it. -/
def prunedKids (fs : FS) (destRoot : Path) (destIsRoot : Bool) (d : Path) : List String :=
  if destIsRoot then childDirs fs d
  else (childDirs fs d).filter fun c =>
    !(is_relative_to_path (d ++ [c]) destRoot) && !((d ++ [c]) == destRoot)

/-- The body of the `for name in filenames` loop (sorter.py lines 82-99):
the filter pipeline applied to one file name of the directory `d`. -/
def fileGate (fs : FS) (root destRoot : Path)
    (destIsRoot include_dotfiles include_code : Bool) (d : Path) (name : String) :
    Option Path :=
  if !include_dotfiles && pyStartsWith name "." then none
  else if !include_code && DEFAULT_CODE_EXTENSIONS.contains (pyLower (pySuffix name)) then none
  else if d == root && pyLower name == "readme.md" then none
  else if !destIsRoot && is_relative_to_path (d ++ [name]) destRoot then none
  else if destIsRoot && d == destRoot ++ [extKey name] then none
  else if fs.files.contains (d ++ [name]) then some (d ++ [name]) else none

/-- The filter pipeline applied to all the files of the directory `d`. -/
def yieldsHere (fs : FS) (root destRoot : Path)
    (destIsRoot include_dotfiles include_code : Bool) (d : Path) : List Path :=
  (filesIn fs d).filterMap (fileGate fs root destRoot destIsRoot include_dotfiles include_code d)

/-- The `os.walk` recursion of `iter_files`, indexed by fuel: visit `d`,
yield its filtered files, then recurse into the pruned subdirectories. -/
def iterFromN (fs : FS) (root destRoot : Path) (dIR iD iC : Bool) : Nat → Path → List Path
  | 0, d => yieldsHere fs root destRoot dIR iD iC d
  | n + 1, d =>
    yieldsHere fs root destRoot dIR iD iC d ++
    (prunedKids fs destRoot dIR d).flatMap fun c =>
      iterFromN fs root destRoot dIR iD iC n (d ++ [c])

/-- Length of the longest recorded path; fuel `maxLen fs + 1` reaches every
directory that can contain a recorded file. -/
def maxLen (fs : FS) : Nat :=
  ((fs.files ++ fs.dirs).map List.length).foldr max 0

/-- `iter_files(root, dest_root, include_dotfiles, include_code)`
(sorter.py lines 56-99), with the default code-extension set. -/
def iter_files (fs : FS) (root destRoot : Path)
    (include_dotfiles include_code : Bool) : List Path :=
  iterFromN fs root destRoot (destRoot == root) include_dotfiles include_code
    (maxLen fs + 1) root

/-- The name `f"{stem} ({counter}){suffix}"` tried by `safe_destination`. -/
def bumpName (stem suffix : String) (counter : Nat) : String :=
  stem ++ " (" ++ toString counter ++ ")" ++ suffix

/-- The `while True` loop of `safe_destination` (sorter.py lines 110-115),
with fuel; `none` models a loop that never finds a free name, impossible on
a finite filesystem. -/
def safeDestLoop (fs : FS) (dest_dir : Path) (stem suffix : String) :
    Nat → Nat → Option Path
  | 0, _ => none
  | fuel + 1, counter =>
    if existsPath fs (dest_dir ++ [bumpName stem suffix counter]) then
      safeDestLoop fs dest_dir stem suffix fuel (counter + 1)
    else some (dest_dir ++ [bumpName stem suffix counter])

/-- `safe_destination(dest_dir, filename)` (sorter.py lines 102-115). -/
def safe_destination (fs : FS) (dest_dir : Path) (filename : String) : Option Path :=
  if existsPath fs (dest_dir ++ [filename]) then
    safeDestLoop fs dest_dir (pyStem filename) (pySuffix filename)
      (fs.files.length + fs.dirs.length + 1) 1
  else some (dest_dir ++ [filename])

/-- `move_file(src, dest_root, dry_run)` (sorter.py lines 118-134).
Returns the path reported/realized for the file together with the new
filesystem state; `shutil.move` on a vanished source raises
(`.error`), and an exhausted `safe_destination` search is also an error. -/
def move_file (fs : FS) (src : Path) (destRoot : Path) (dry_run : Bool) :
    Except FS (Path × FS) :=
  match src.getLast? with
  | none => .error fs
  | some name =>
    match mkdirParents fs (destRoot ++ [extKey name]) with
    | .error f => .error f
    | .ok fs1 =>
      if src.dropLast = destRoot ++ [extKey name] then .ok (src, fs1)
      else
        match safe_destination fs1 (destRoot ++ [extKey name]) name with
        | none => .error fs1
        | some dest =>
          if dry_run then .ok (dest, fs1)
          else if fs1.files.contains src then
            .ok (dest, ⟨dest :: fs1.files.erase src, fs1.dirs⟩)
          else .error fs1

/-- The `for path in files: move_file(...)` loop of `sort_files`
(sorter.py lines 158-159), collecting the per-file results of `move_file`
(printed and returned by `move_file`, discarded by the loop) for
specification purposes. -/
def processAll (fs : FS) (cands : List Path) (destRoot : Path) (dry_run : Bool) :
    Except FS (List Path × FS) :=
  match cands with
  | [] => .ok ([], fs)
  | c :: rest =>
    match move_file fs c destRoot dry_run with
    | .error f => .error f
    | .ok (d, fs1) =>
      match processAll fs1 rest destRoot dry_run with
      | .error f => .error f
      | .ok (ds, fs') => .ok (d :: ds, fs')

/-- `sort_files(config)` (sorter.py lines 137-163).  Returns the candidate
list (the source's return value), the list of per-file `move_file` results,
and the final filesystem state.  The `SystemExit` on a missing or
non-directory root is `.error fs` with the untouched initial state. -/
def sort_files (cfg : SortConfig) (fs : FS) : Except FS (List Path × List Path × FS) :=
  if !(isDirB fs cfg.root) then .error fs
  else
    match mkdirParents fs cfg.destination_root with
    | .error f => .error f
    | .ok fs1 =>
      match processAll fs1
          (iter_files fs1 cfg.root cfg.destination_root
            cfg.include_dotfiles cfg.include_code)
          cfg.destination_root cfg.dry_run with
      | .error f => .error f
      | .ok (dests, fs') =>
        .ok (iter_files fs1 cfg.root cfg.destination_root
          cfg.include_dotfiles cfg.include_code, dests, fs')

/-! ## Specification predicates -/

/-- What `safe_destination(dest_dir, filename)` is specified to return:
`dest_dir/filename` when that path does not exist, and otherwise
`dest_dir/"stem (n)suffix"` for the smallest `n ≥ 1` whose path does not
exist; in either case the result does not refer to an existing path. -/
def safeDestSpec (fs : FS) (dest_dir : Path) (filename : String) (p : Path) : Prop :=
  (existsPath fs (dest_dir ++ [filename]) = false ∧ p = dest_dir ++ [filename]) ∨
  (existsPath fs (dest_dir ++ [filename]) = true ∧ ∃ n, 1 ≤ n ∧
    p = dest_dir ++ [bumpName (pyStem filename) (pySuffix filename) n] ∧
    existsPath fs p = false ∧
    ∀ m, 1 ≤ m → m < n →
      existsPath fs (dest_dir ++ [bumpName (pyStem filename) (pySuffix filename) m]) = true)

/-- The source→target pair `move_file` reports for a candidate `c` in
dry-run mode, phrased against a fixed filesystem state `fs`: either the
"already grouped" skip, or the `safe_destination` result. -/
def dryMoveSpec (fs : FS) (destRoot : Path) (c p : Path) : Prop :=
  ∃ name, c.getLast? = some name ∧
    ((c.dropLast = destRoot ++ [extKey name] ∧ p = c) ∨
     (c.dropLast ≠ destRoot ++ [extKey name] ∧
       safeDestSpec fs (destRoot ++ [extKey name]) name p))

/-- The filter pipeline of `iter_files`, as a predicate on a directory and a
file name: all the reasons lines 84-98 of sorter.py could skip the file are
absent. -/
def Yieldable (fs : FS) (root destRoot : Path) (dIR iD iC : Bool)
    (d : Path) (name : String) : Prop :=
  (d ++ [name]) ∈ fs.files ∧
  (iD = false → pyStartsWith name "." = false) ∧
  (iC = false → DEFAULT_CODE_EXTENSIONS.contains (pyLower (pySuffix name)) = false) ∧
  ¬(d = root ∧ pyLower name = "readme.md") ∧
  (dIR = false → is_relative_to_path (d ++ [name]) destRoot = false) ∧
  (dIR = true → d ≠ destRoot ++ [extKey name])

/-! ## Basic helper lemmas -/

lemma prefix_eq_of_length {α : Type} {l₁ l₂ t : List α} (h₁ : l₁ <+: t) (h₂ : l₂ <+: t)
    (h : l₁.length = l₂.length) : l₁ = l₂ :=
  (List.prefix_of_prefix_length_le h₁ h₂ h.le).eq_of_length h

lemma le_foldr_max {l : List Nat} {x : Nat} (h : x ∈ l) : x ≤ l.foldr max 0 := by
  induction l with
  | nil => cases h
  | cons a t ih =>
    rcases List.mem_cons.mp h with rfl | ht
    · exact le_max_left _ _
    · exact le_trans (ih ht) (le_max_right _ _)

lemma length_le_maxLen_of_file {fs : FS} {p : Path} (h : p ∈ fs.files) :
    p.length ≤ maxLen fs :=
  le_foldr_max (List.mem_map_of_mem List.length (List.mem_append_left _ h))

lemma filesIn_eq_some {p d : Path} {name : String}
    (h : (if p.dropLast = d then p.getLast? else none) = some name) :
    p = d ++ [name] := by
  split at h
  · next hdrop =>
    have hq2 : p.dropLast ++ [name] = p :=
      List.dropLast_append_getLast? name (by simp [h])
    rw [← hq2, hdrop]
  · cases h

lemma mem_filesIn {fs : FS} {d : Path} {name : String} :
    name ∈ filesIn fs d ↔ (d ++ [name]) ∈ fs.files := by
  unfold filesIn
  rw [List.mem_filterMap]
  constructor
  · rintro ⟨q, hq, h⟩
    rwa [filesIn_eq_some h] at hq
  · intro hmem
    exact ⟨d ++ [name], hmem, by simp⟩

lemma filesIn_nodup {fs : FS} {d : Path} (h : fs.files.Nodup) : (filesIn fs d).Nodup := by
  unfold filesIn
  refine List.Nodup.filterMap ?_ h
  intro a a' b hb hb'
  rw [Option.mem_def] at hb hb'
  rw [filesIn_eq_some hb, filesIn_eq_some hb']

lemma mem_childDirs_of_file {fs : FS} {d p : Path} (hp : p ∈ fs.files)
    (hpre : d <+: p) (hlen : d.length + 1 < p.length) :
    p.get ⟨d.length, by omega⟩ ∈ childDirs fs d := by
  unfold childDirs
  rw [List.mem_dedup, List.mem_append]
  left
  rw [List.mem_filterMap]
  refine ⟨p, hp, ?_⟩
  rw [if_pos, List.getElem?_eq_getElem (by omega)]
  · rfl
  · rw [Bool.and_eq_true, List.isPrefixOf_iff_prefix, decide_eq_true_eq]
    exact ⟨hpre, hlen⟩

lemma fileGate_eq_some {fs : FS} {root destRoot : Path} {dIR iD iC : Bool}
    {d : Path} {name : String} {p : Path} :
    fileGate fs root destRoot dIR iD iC d name = some p ↔
      p = d ++ [name] ∧ Yieldable fs root destRoot dIR iD iC d name := by
  unfold fileGate Yieldable
  constructor
  · intro h
    split at h
    · cases h
    · split at h
      · cases h
      · split at h
        · cases h
        · split at h
          · cases h
          · split at h
            · cases h
            · split at h
              · next h1 h2 h3 h4 h5 hcont =>
                refine ⟨(Option.some.injEq _ _ ▸ h).symm, by simpa using hcont,
                  ?_, ?_, ?_, ?_, ?_⟩
                · intro hiD; subst hiD; simpa using h1
                · intro hiC; subst hiC; simpa using h2
                · rintro ⟨rfl, hrm⟩
                  simp [hrm] at h3
                · intro hdir; subst hdir; simpa using h4
                · intro hdir hd; subst hdir; simp [hd] at h5
              · cases h
  · rintro ⟨rfl, hmem, h1, h2, h3, h4, h5⟩
    have e1 : (!iD && pyStartsWith name ".") = false := by
      cases iD <;> simp_all
    have e2 : (!iC && DEFAULT_CODE_EXTENSIONS.contains (pyLower (pySuffix name))) = false := by
      cases iC <;> simp_all
    have e3 : (d == root && pyLower name == "readme.md") = false := by
      by_cases hd : d = root
      · have : pyLower name ≠ "readme.md" := fun hr => h3 ⟨hd, hr⟩
        simp [hd, this]
      · simp [hd]
    have e4 : (!dIR && is_relative_to_path (d ++ [name]) destRoot) = false := by
      cases dIR
      · simp [h4 rfl]
      · simp
    have e5 : (dIR && d == destRoot ++ [extKey name]) = false := by
      cases dIR
      · simp
      · simp [h5 rfl]
    simp only [e1, e2, e3, e4, e5, Bool.false_eq_true, if_false]
    simp [hmem]

/-! ## Traversal lemmas -/

lemma mem_yieldsHere {fs : FS} {root destRoot : Path} {dIR iD iC : Bool} {d p : Path} :
    p ∈ yieldsHere fs root destRoot dIR iD iC d ↔
      ∃ name, p = d ++ [name] ∧ Yieldable fs root destRoot dIR iD iC d name := by
  unfold yieldsHere
  rw [List.mem_filterMap]
  constructor
  · rintro ⟨name, _, hg⟩
    obtain ⟨rfl, hy⟩ := fileGate_eq_some.mp hg
    exact ⟨name, rfl, hy⟩
  · rintro ⟨name, rfl, hy⟩
    exact ⟨name, mem_filesIn.mpr hy.1, fileGate_eq_some.mpr ⟨rfl, hy⟩⟩

lemma yieldsHere_nodup {fs : FS} {root destRoot : Path} {dIR iD iC : Bool} {d : Path}
    (h : fs.files.Nodup) : (yieldsHere fs root destRoot dIR iD iC d).Nodup := by
  unfold yieldsHere
  refine List.Nodup.filterMap ?_ (filesIn_nodup h)
  intro a a' b hb hb'
  rw [Option.mem_def] at hb hb'
  obtain ⟨hb1, _⟩ := fileGate_eq_some.mp hb
  obtain ⟨hb1', _⟩ := fileGate_eq_some.mp hb'
  have : d ++ [a] = d ++ [a'] := by rw [← hb1, hb1']
  simpa using List.append_cancel_left this

/-- Everything `iter_files` yields is a recorded file `dir ++ [name]` with
`dir` below the walk's starting directory, and it passed the whole filter
pipeline. -/
lemma mem_iterFromN {fs : FS} {root destRoot : Path} {dIR iD iC : Bool} :
    ∀ {n : Nat} {d p : Path}, p ∈ iterFromN fs root destRoot dIR iD iC n d →
      ∃ dir name, p = dir ++ [name] ∧ d <+: dir ∧
        Yieldable fs root destRoot dIR iD iC dir name := by
  intro n
  induction n with
  | zero =>
    intro d p h
    obtain ⟨name, rfl, hy⟩ := mem_yieldsHere.mp h
    exact ⟨d, name, rfl, List.prefix_refl d, hy⟩
  | succ n ih =>
    intro d p h
    rw [iterFromN, List.mem_append] at h
    rcases h with h | h
    · obtain ⟨name, rfl, hy⟩ := mem_yieldsHere.mp h
      exact ⟨d, name, rfl, List.prefix_refl d, hy⟩
    · rw [List.mem_flatMap] at h
      obtain ⟨c, _, hp⟩ := h
      obtain ⟨dir, name, rfl, hpre, hy⟩ := ih hp
      exact ⟨dir, name, rfl, (List.prefix_append d [c]).trans hpre, hy⟩

lemma prefix_snoc_getElem {α : Type} {d t : List α} (h : d <+: t) (hlt : d.length < t.length) :
    d ++ [t.get ⟨d.length, hlt⟩] <+: t := by
  rw [List.prefix_iff_eq_take] at h ⊢
  rw [List.length_append, List.length_singleton, List.take_succ,
    List.getElem?_eq_getElem hlt]
  rw [← h]
  rfl

lemma iterFromN_nodup {fs : FS} {root destRoot : Path} {dIR iD iC : Bool}
    (hf : fs.files.Nodup) :
    ∀ (n : Nat) (d : Path), (iterFromN fs root destRoot dIR iD iC n d).Nodup := by
  intro n
  induction n with
  | zero => intro d; exact yieldsHere_nodup hf
  | succ n ih =>
    intro d
    rw [iterFromN, List.nodup_append]
    refine ⟨yieldsHere_nodup hf, ?_, ?_⟩
    · rw [List.nodup_flatMap]
      refine ⟨fun c _ => ih _, ?_⟩
      have hnd : (prunedKids fs destRoot dIR d).Nodup := by
        unfold prunedKids
        split
        · exact List.nodup_dedup _
        · exact (List.nodup_dedup _).filter _
      refine List.Pairwise.imp ?_ hnd
      intro c₁ c₂ hne p hp1 hp2
      obtain ⟨dir, name, rfl, hpre1, _⟩ := mem_iterFromN hp1
      obtain ⟨dir', name', heq, hpre2, _⟩ := mem_iterFromN hp2
      have hdir : dir = dir' := by
        have := congrArg List.dropLast heq
        simpa using this
      rw [← hdir] at hpre2
      have : d ++ [c₁] = d ++ [c₂] :=
        prefix_eq_of_length hpre1 hpre2 (by simp)
      exact hne (by simpa using List.append_cancel_left this)
    · intro p hp hp2
      obtain ⟨name, rfl, _⟩ := mem_yieldsHere.mp hp
      rw [List.mem_flatMap] at hp2
      obtain ⟨c, _, hpc⟩ := hp2
      obtain ⟨dir, name', heq, hpre, _⟩ := mem_iterFromN hpc
      have hdir : d = dir := by
        have := congrArg List.dropLast heq
        simpa using this
      have hlen : (d ++ [c]).length ≤ dir.length := hpre.length_le
      rw [← hdir] at hlen
      simp at hlen

/-- Completeness of the in-place walk: a recorded file below the walk's
current directory that passes every filter is yielded, given enough fuel. -/
lemma iterFromN_complete_inplace {fs : FS} {root destRoot : Path} {iD iC : Bool} :
    ∀ {n : Nat} {d dir : Path} {name : String},
      Yieldable fs root destRoot true iD iC dir name → d <+: dir →
      dir.length ≤ d.length + n →
      (dir ++ [name]) ∈ iterFromN fs root destRoot true iD iC n d := by
  intro n
  induction n with
  | zero =>
    intro d dir name hy hpre hlen
    have hd : d = dir := hpre.eq_of_length (le_antisymm hpre.length_le (by simpa using hlen))
    subst hd
    exact mem_yieldsHere.mpr ⟨name, rfl, hy⟩
  | succ n ih =>
    intro d dir name hy hpre hlen
    by_cases hd : d = dir
    · subst hd
      rw [iterFromN, List.mem_append]
      exact Or.inl (mem_yieldsHere.mpr ⟨name, rfl, hy⟩)
    · have hlt : d.length < dir.length :=
        lt_of_le_of_ne hpre.length_le (fun he => hd (hpre.eq_of_length he))
      have hplen : d.length + 1 < (dir ++ [name]).length := by
        rw [List.length_append, List.length_singleton]; omega
      have hpre2 : d <+: dir ++ [name] := hpre.trans (List.prefix_append dir [name])
      have hc := mem_childDirs_of_file hy.1 hpre2 hplen
      have hgetc : (dir ++ [name]).get ⟨d.length, by omega⟩ = dir.get ⟨d.length, hlt⟩ := by
        simp only [List.get_eq_getElem]
        exact List.getElem_append_left hlt
      rw [iterFromN, List.mem_append]
      right
      rw [List.mem_flatMap]
      refine ⟨dir.get ⟨d.length, hlt⟩, ?_, ?_⟩
      · have : prunedKids fs destRoot true d = childDirs fs d := by simp [prunedKids]
        rw [this, ← hgetc]
        exact hc
      · exact ih hy (prefix_snoc_getElem hpre hlt) (by simp; omega)

/-! ## safe_destination lemmas -/

lemma safeDestLoop_spec {fs : FS} {dd : Path} {stem suffix : String} :
    ∀ {fuel counter : Nat} {p : Path},
      safeDestLoop fs dd stem suffix fuel counter = some p →
      ∃ k, p = dd ++ [bumpName stem suffix (counter + k)] ∧
        existsPath fs p = false ∧
        ∀ m, counter ≤ m → m < counter + k →
          existsPath fs (dd ++ [bumpName stem suffix m]) = true := by
  intro fuel
  induction fuel with
  | zero => intro counter p h; cases h
  | succ fuel ih =>
    intro counter p h
    rw [safeDestLoop] at h
    split at h
    · next hex =>
      obtain ⟨k, hp, hnex, hall⟩ := ih h
      have hadd : counter + 1 + k = counter + (k + 1) := by omega
      refine ⟨k + 1, by rw [hp, hadd], hnex, ?_⟩
      intro m hm1 hm2
      by_cases hmc : m = counter
      · subst hmc; exact hex
      · exact hall m (by omega) (by omega)
    · next hex =>
      refine ⟨0, (Option.some.inj h).symm, ?_, ?_⟩
      · rw [← Option.some.inj h]
        exact Bool.not_eq_true _ ▸ hex
      · intro m h1 h2; omega

lemma safe_destination_spec {fs : FS} {dd : Path} {name : String} {p : Path}
    (h : safe_destination fs dd name = some p) : safeDestSpec fs dd name p := by
  unfold safe_destination at h
  split at h
  · next hex =>
    obtain ⟨k, hp, hnex, hall⟩ := safeDestLoop_spec h
    right
    refine ⟨hex, 1 + k, by omega, hp, hnex, ?_⟩
    intro m h1 h2
    exact hall m h1 (by omega)
  · next hex =>
    exact Or.inl ⟨Bool.not_eq_true _ ▸ hex, (Option.some.inj h).symm⟩

lemma safeDestSpec_not_exists {fs : FS} {dd : Path} {name : String} {p : Path}
    (h : safeDestSpec fs dd name p) : existsPath fs p = false := by
  rcases h with ⟨hex, rfl⟩ | ⟨_, n, _, _, hnex, _⟩
  · exact hex
  · exact hnex

lemma safeDestSpec_dropLast {fs : FS} {dd : Path} {name : String} {p : Path}
    (h : safeDestSpec fs dd name p) : p.dropLast = dd := by
  rcases h with ⟨_, rfl⟩ | ⟨_, n, _, rfl, _, _⟩ <;> simp

lemma safeDestSpec_unique {fs : FS} {dd : Path} {name : String} {p₁ p₂ : Path}
    (h₁ : safeDestSpec fs dd name p₁) (h₂ : safeDestSpec fs dd name p₂) : p₁ = p₂ := by
  rcases h₁ with ⟨hex₁, rfl⟩ | ⟨hex₁, n₁, hn₁, hp₁, hnex₁, hall₁⟩ <;>
    rcases h₂ with ⟨hex₂, rfl⟩ | ⟨hex₂, n₂, hn₂, hp₂, hnex₂, hall₂⟩
  · rfl
  · rw [hex₁] at hex₂; cases hex₂
  · rw [hex₂] at hex₁; cases hex₁
  · rcases Nat.lt_trichotomy n₁ n₂ with hlt | heq | hgt
    · rw [hp₁] at hnex₁
      rw [hall₂ n₁ hn₁ hlt] at hnex₁
      cases hnex₁
    · rw [hp₁, hp₂, heq]
    · rw [hp₂] at hnex₂
      rw [hall₁ n₂ hn₂ hgt] at hnex₂
      cases hnex₂

lemma existsPath_not_mem_files {fs : FS} {p : Path} (h : existsPath fs p = false) :
    p ∉ fs.files := by
  intro hmem
  unfold existsPath at h
  rw [Bool.or_eq_false_iff] at h
  have := h.1
  simp at this
  exact this hmem

/-! ## Congruence of existence checks under bucket-directory creation -/

lemma existsPath_congr {fs fs' : FS} {L : Nat}
    (hfiles : fs'.files = fs.files)
    (hsub : ∀ q ∈ fs.dirs, q ∈ fs'.dirs)
    (hnew : ∀ q ∈ fs'.dirs, q ∈ fs.dirs ∨ q.length ≤ L) :
    ∀ {p : Path}, L < p.length → existsPath fs' p = existsPath fs p := by
  intro p hp
  have h1 : (fs'.dirs.any fun q => p.isPrefixOf q) = (fs.dirs.any fun q => p.isPrefixOf q) := by
    rw [Bool.eq_iff_iff]
    simp only [List.any_eq_true, List.isPrefixOf_iff_prefix]
    constructor
    · rintro ⟨q, hq, hpq⟩
      rcases hnew q hq with h | h
      · exact ⟨q, h, hpq⟩
      · exact absurd hpq.length_le (by omega)
    · rintro ⟨q, hq, hpq⟩
      exact ⟨q, hsub q hq, hpq⟩
  unfold existsPath isDirB
  rw [hfiles, h1]

lemma safeDestSpec_congr {fs fs' : FS} {dd : Path} {name : String} {p : Path}
    (hfiles : fs'.files = fs.files)
    (hsub : ∀ q ∈ fs.dirs, q ∈ fs'.dirs)
    (hnew : ∀ q ∈ fs'.dirs, q ∈ fs.dirs ∨ q.length ≤ dd.length) :
    safeDestSpec fs' dd name p ↔ safeDestSpec fs dd name p := by
  have hE : ∀ s : String, existsPath fs' (dd ++ [s]) = existsPath fs (dd ++ [s]) :=
    fun s => existsPath_congr hfiles hsub hnew (by simp)
  unfold safeDestSpec
  constructor
  · rintro (⟨hex, hp⟩ | ⟨hex, n, hn, hp, hnex, hall⟩)
    · exact Or.inl ⟨by rw [← hE name]; exact hex, hp⟩
    · refine Or.inr ⟨by rw [← hE name]; exact hex, n, hn, hp, ?_, ?_⟩
      · rw [hp] at hnex ⊢; rw [← hE _]; exact hnex
      · intro m h1 h2; rw [← hE _]; exact hall m h1 h2
  · rintro (⟨hex, hp⟩ | ⟨hex, n, hn, hp, hnex, hall⟩)
    · exact Or.inl ⟨by rw [hE name]; exact hex, hp⟩
    · refine Or.inr ⟨by rw [hE name]; exact hex, n, hn, hp, ?_, ?_⟩
      · rw [hp] at hnex ⊢; rw [hE _]; exact hnex
      · intro m h1 h2; rw [hE _]; exact hall m h1 h2

lemma dryMoveSpec_congr {fs fs' : FS} {destRoot c p : Path}
    (hfiles : fs'.files = fs.files)
    (hsub : ∀ q ∈ fs.dirs, q ∈ fs'.dirs)
    (hnew : ∀ q ∈ fs'.dirs, q ∈ fs.dirs ∨ q.length ≤ destRoot.length + 1) :
    dryMoveSpec fs' destRoot c p ↔ dryMoveSpec fs destRoot c p := by
  unfold dryMoveSpec
  refine exists_congr fun name => and_congr_right fun _ =>
    or_congr Iff.rfl (and_congr_right fun _ => ?_)
  exact safeDestSpec_congr hfiles hsub (by simpa using hnew)

/-! ## mkdirParents and move_file lemmas -/

lemma mkdirParents_ok {fs fs' : FS} {p : Path} (h : mkdirParents fs p = .ok fs') :
    fs'.files = fs.files ∧ (∀ q ∈ fs.dirs, q ∈ fs'.dirs) ∧
      (∀ q ∈ fs'.dirs, q ∈ fs.dirs ∨ q = p) := by
  unfold mkdirParents at h
  split at h
  · injection h with h2
    subst h2
    exact ⟨rfl, fun q hq => hq, fun q hq => Or.inl hq⟩
  · split at h
    · cases h
    · injection h with h2
      subst h2
      refine ⟨rfl, fun q hq => List.mem_cons_of_mem _ hq, fun q hq => ?_⟩
      rcases List.mem_cons.mp hq with h | h
      exacts [Or.inr h, Or.inl h]

lemma mkdirParents_of_isDir {fs : FS} {p : Path} (h : isDirB fs p = true) :
    mkdirParents fs p = .ok fs := by
  simp [mkdirParents, h]

/-- Master elimination for a successful `move_file`: the name of the moved
file, the state after the bucket `mkdir`, and the three success branches
(skip, dry-run report, actual move). -/
lemma move_file_ok_elim {fs fs' : FS} {src destRoot p : Path} {dr : Bool}
    (h : move_file fs src destRoot dr = .ok (p, fs')) :
    ∃ name fsm,
      src.getLast? = some name ∧
      mkdirParents fs (destRoot ++ [extKey name]) = .ok fsm ∧
      ((src.dropLast = destRoot ++ [extKey name] ∧ p = src ∧ fs' = fsm) ∨
       (src.dropLast ≠ destRoot ++ [extKey name] ∧
         safe_destination fsm (destRoot ++ [extKey name]) name = some p ∧
         ((dr = true ∧ fs' = fsm) ∨
          (dr = false ∧ src ∈ fsm.files ∧
            fs' = ⟨p :: fsm.files.erase src, fsm.dirs⟩)))) := by
  cases hl : src.getLast? with
  | none => simp only [move_file, hl] at h; cases h
  | some name =>
    simp only [move_file, hl] at h
    cases hmk : mkdirParents fs (destRoot ++ [extKey name]) with
    | error f => simp only [hmk] at h; cases h
    | ok fsm =>
      simp only [hmk] at h
      refine ⟨name, fsm, rfl, hmk, ?_⟩
      split at h
      · next hskip =>
        rw [Except.ok.injEq, Prod.mk.injEq] at h
        exact Or.inl ⟨hskip, h.1.symm, h.2.symm⟩
      · next hnskip =>
        cases hsd : safe_destination fsm (destRoot ++ [extKey name]) name with
        | none => simp only [hsd] at h; cases h
        | some dest =>
          simp only [hsd] at h
          split at h
          · next hdr =>
            rw [Except.ok.injEq, Prod.mk.injEq] at h
            rw [← h.1]
            exact Or.inr ⟨hnskip, rfl, Or.inl ⟨hdr, h.2.symm⟩⟩
          · next hdr =>
            split at h
            · next hcont =>
              rw [Except.ok.injEq, Prod.mk.injEq] at h
              rw [← h.1]
              refine Or.inr ⟨hnskip, rfl, Or.inr
                ⟨Bool.not_eq_true _ ▸ hdr, by simpa using hcont, ?_⟩⟩
              rw [← h.2, h.1]
            · cases h

/-- A successful `move_file` reports a path whose parent directory is the
extension bucket of the moved file's name. -/
lemma move_file_ok_dropLast {fs fs' : FS} {src destRoot p : Path} {dr : Bool}
    (h : move_file fs src destRoot dr = .ok (p, fs')) :
    ∃ name, src.getLast? = some name ∧ p.dropLast = destRoot ++ [extKey name] := by
  obtain ⟨name, fsm, hl, hmk, hbr⟩ := move_file_ok_elim h
  rcases hbr with ⟨hskip, rfl, _⟩ | ⟨_, hsd, _⟩
  · exact ⟨name, hl, hskip⟩
  · exact ⟨name, hl, safeDestSpec_dropLast (safe_destination_spec hsd)⟩

/-- Elimination for a successful live (`dry_run = false`) `move_file`. -/
lemma move_file_live_elim {fs fs' : FS} {src destRoot p : Path}
    (h : move_file fs src destRoot false = .ok (p, fs')) :
    ∃ name, src.getLast? = some name ∧
      (∀ q ∈ fs.dirs, q ∈ fs'.dirs) ∧
      p.dropLast = destRoot ++ [extKey name] ∧
      ((p = src ∧ fs'.files = fs.files) ∨
       (p ∉ fs.files ∧ src ∈ fs.files ∧ fs'.files = p :: fs.files.erase src)) := by
  obtain ⟨name, fsm, hl, hmk, hbr⟩ := move_file_ok_elim h
  obtain ⟨hmf, hmd, _⟩ := mkdirParents_ok hmk
  rcases hbr with ⟨hskip, rfl, rfl⟩ | ⟨hnskip, hsd, hcase⟩
  · exact ⟨name, hl, hmd, hskip, Or.inl ⟨rfl, hmf⟩⟩
  · rcases hcase with ⟨hdr, _⟩ | ⟨_, hsrc, rfl⟩
    · simp at hdr
    · have hspec := safe_destination_spec hsd
      refine ⟨name, hl, hmd, safeDestSpec_dropLast hspec, Or.inr ⟨?_, ?_, ?_⟩⟩
      · have := existsPath_not_mem_files (safeDestSpec_not_exists hspec)
        rwa [hmf] at this
      · rwa [hmf] at hsrc
      · show p :: fsm.files.erase src = p :: fs.files.erase src
        rw [hmf]

/-- Elimination for a successful dry-run `move_file`. -/
lemma move_file_dry_elim {fs fs' : FS} {src destRoot p : Path}
    (h : move_file fs src destRoot true = .ok (p, fs')) :
    ∃ name, src.getLast? = some name ∧ fs'.files = fs.files ∧
      (∀ q ∈ fs.dirs, q ∈ fs'.dirs) ∧
      (∀ q ∈ fs'.dirs, q ∈ fs.dirs ∨ q = destRoot ++ [extKey name]) ∧
      dryMoveSpec fs destRoot src p := by
  obtain ⟨name, fsm, hl, hmk, hbr⟩ := move_file_ok_elim h
  obtain ⟨hmf, hmd, hmcls⟩ := mkdirParents_ok hmk
  rcases hbr with ⟨hskip, rfl, rfl⟩ | ⟨hnskip, hsd, hcase⟩
  · exact ⟨name, hl, hmf, hmd, hmcls, ⟨name, hl, Or.inl ⟨hskip, rfl⟩⟩⟩
  · rcases hcase with ⟨_, rfl⟩ | ⟨hdr, _⟩
    · have hspec := safe_destination_spec hsd
      have hnew : ∀ q ∈ fs'.dirs, q ∈ fs.dirs ∨
          q.length ≤ (destRoot ++ [extKey name]).length := by
        intro q hq
        rcases hmcls q hq with h | h
        · exact Or.inl h
        · right; rw [h]
      have hspec' : safeDestSpec fs (destRoot ++ [extKey name]) name p :=
        (safeDestSpec_congr hmf hmd hnew).mp hspec
      exact ⟨name, hl, hmf, hmd, hmcls, ⟨name, hl, Or.inr ⟨hnskip, hspec'⟩⟩⟩
    · simp at hdr

lemma getLastD_of_getLast? {p : Path} {name : String} (h : p.getLast? = some name) :
    p.getLastD "" = name := by
  rw [List.getLastD_eq_getLast?, h]
  rfl

/-! ## The processing loop -/

/-- Invariants of a completed live (`dry_run = false`) processing loop:
the final files are duplicate-free; every candidate's reported destination
is a final file sitting directly in the extension bucket of the
candidate's original name; every final file is a reported destination or
an untouched non-candidate; untouched non-candidates survive; reported
destinations are fresh paths or in-place candidates; the destinations are
pairwise distinct; directories only grow. -/
lemma processAll_live {destRoot : Path} :
    ∀ {cands : List Path} {fs : FS} {dests : List Path} {fs' : FS},
      fs.files.Nodup → cands.Nodup → (∀ c ∈ cands, c ∈ fs.files) →
      processAll fs cands destRoot false = .ok (dests, fs') →
      fs'.files.Nodup ∧
      List.Forall₂ (fun c d => d ∈ fs'.files ∧
        d.dropLast = destRoot ++ [extKey (c.getLastD "")]) cands dests ∧
      (∀ p, p ∈ fs'.files → p ∈ dests ∨ (p ∈ fs.files ∧ p ∉ cands)) ∧
      (∀ p, p ∈ fs.files → p ∉ cands → p ∈ fs'.files) ∧
      (∀ x ∈ dests, x ∉ fs.files ∨ x ∈ cands) ∧
      dests.Nodup ∧
      (∀ q ∈ fs.dirs, q ∈ fs'.dirs) := by
  intro cands
  induction cands with
  | nil =>
    intro fs dests fs' hnd _ _ h
    simp only [processAll] at h
    rw [Except.ok.injEq, Prod.mk.injEq] at h
    obtain ⟨h1, h2⟩ := h
    subst h1; subst h2
    exact ⟨hnd, List.Forall₂.nil, fun p hp => Or.inr ⟨hp, by simp⟩,
      fun p hp _ => hp, fun x hx => absurd hx (by simp), List.nodup_nil,
      fun q hq => hq⟩
  | cons c rest ih =>
    intro fs dests fs' hnd hcnd hsub h
    simp only [processAll] at h
    cases hmv : move_file fs c destRoot false with
    | error f => simp only [hmv] at h; cases h
    | ok pr =>
      obtain ⟨d, fs1⟩ := pr
      simp only [hmv] at h
      cases hpa : processAll fs1 rest destRoot false with
      | error f => simp only [hpa] at h; cases h
      | ok pr2 =>
        obtain ⟨ds, fs2⟩ := pr2
        simp only [hpa] at h
        rw [Except.ok.injEq, Prod.mk.injEq] at h
        obtain ⟨hds, hfs2⟩ := h
        subst hds; subst hfs2
        obtain ⟨name, hl, hdirs1, hdrop, hbr⟩ := move_file_live_elim hmv
        have hname : c.getLastD "" = name := getLastD_of_getLast? hl
        have hc : c ∈ fs.files := hsub c (List.mem_cons_self c rest)
        have hcrest : c ∉ rest := (List.nodup_cons.mp hcnd).1
        have hrestnd : rest.Nodup := (List.nodup_cons.mp hcnd).2
        rcases hbr with ⟨rfl, hf1⟩ | ⟨hdnotin, hcin, hf1⟩
        · -- skip branch: the reported path is the candidate itself
          have hnd1 : fs1.files.Nodup := hf1 ▸ hnd
          have hsub1 : ∀ x ∈ rest, x ∈ fs1.files := by
            intro x hx; rw [hf1]; exact hsub x (List.mem_cons_of_mem _ hx)
          obtain ⟨G1, G2, G3, G4, G5, G6, G7⟩ := ih hnd1 hrestnd hsub1 hpa
          refine ⟨G1, ?_, ?_, ?_, ?_, ?_, ?_⟩
          · refine List.Forall₂.cons ⟨?_, by rw [hname]; exact hdrop⟩ G2
            exact G4 d (by rw [hf1]; exact hc) hcrest
          · intro p hp
            rcases G3 p hp with hpd | ⟨hpf, hpr⟩
            · exact Or.inl (List.mem_cons_of_mem _ hpd)
            · rw [hf1] at hpf
              by_cases hpc : p = d
              · exact Or.inl (hpc ▸ List.mem_cons_self _ _)
              · exact Or.inr ⟨hpf, by simp [hpc, hpr]⟩
          · intro p hp hpn
            refine G4 p (by rw [hf1]; exact hp) fun hr => hpn (List.mem_cons_of_mem _ hr)
          · intro x hx
            rcases List.mem_cons.mp hx with rfl | hx'
            · exact Or.inr (List.mem_cons_self _ _)
            · rcases G5 x hx' with hnf | hr
              · exact Or.inl (fun hxf => hnf (by rw [hf1]; exact hxf))
              · exact Or.inr (List.mem_cons_of_mem _ hr)
          · refine List.nodup_cons.mpr ⟨?_, G6⟩
            intro hcd
            rcases G5 d hcd with hnf | hr
            · exact hnf (by rw [hf1]; exact hc)
            · exact hcrest hr
          · intro q hq; exact G7 q (hdirs1 q hq)
        · -- move branch: the reported path is a fresh destination
          have hnd1 : fs1.files.Nodup := by
            rw [hf1]
            exact List.nodup_cons.mpr
              ⟨fun hm => hdnotin (List.mem_of_mem_erase hm), hnd.erase _⟩
          have hsub1 : ∀ x ∈ rest, x ∈ fs1.files := by
            intro x hx
            rw [hf1]
            have hxc : x ≠ c := fun he => hcrest (he ▸ hx)
            exact List.mem_cons_of_mem _
              ((List.mem_erase_of_ne hxc).mpr (hsub x (List.mem_cons_of_mem _ hx)))
          obtain ⟨G1, G2, G3, G4, G5, G6, G7⟩ := ih hnd1 hrestnd hsub1 hpa
          have hdrest : d ∉ rest := fun hr => hdnotin (hsub d (List.mem_cons_of_mem _ hr))
          refine ⟨G1, ?_, ?_, ?_, ?_, ?_, ?_⟩
          · refine List.Forall₂.cons ⟨?_, by rw [hname]; exact hdrop⟩ G2
            exact G4 d (by rw [hf1]; exact List.mem_cons_self _ _) hdrest
          · intro p hp
            rcases G3 p hp with hpd | ⟨hpf, hpr⟩
            · exact Or.inl (List.mem_cons_of_mem _ hpd)
            · rw [hf1] at hpf
              rcases List.mem_cons.mp hpf with rfl | hpe
              · exact Or.inl (List.mem_cons_self _ _)
              · obtain ⟨hpc, hpfs⟩ := (List.Nodup.mem_erase_iff hnd).mp hpe
                exact Or.inr ⟨hpfs, by simp [hpc, hpr]⟩
          · intro p hp hpn
            have hpc : p ≠ c := fun he => hpn (he ▸ List.mem_cons_self _ _)
            refine G4 p ?_ fun hr => hpn (List.mem_cons_of_mem _ hr)
            rw [hf1]
            exact List.mem_cons_of_mem _ ((List.mem_erase_of_ne hpc).mpr hp)
          · intro x hx
            rcases List.mem_cons.mp hx with rfl | hx'
            · exact Or.inl hdnotin
            · rcases G5 x hx' with hnf | hr
              · by_cases hxf : x ∈ fs.files
                · by_cases hxc : x = c
                  · exact Or.inr (hxc ▸ List.mem_cons_self _ _)
                  · exact absurd (by
                      rw [hf1]
                      exact List.mem_cons_of_mem _ ((List.mem_erase_of_ne hxc).mpr hxf)) hnf
                · exact Or.inl hxf
              · exact Or.inr (List.mem_cons_of_mem _ hr)
          · refine List.nodup_cons.mpr ⟨?_, G6⟩
            intro hdd
            rcases G5 d hdd with hnf | hr
            · exact hnf (by rw [hf1]; exact List.mem_cons_self _ _)
            · exact hdrest hr
          · intro q hq; exact G7 q (hdirs1 q hq)

/-- Invariants of a completed dry-run processing loop: the files are
untouched, directories grow only by extension buckets of the candidates,
and every reported target satisfies `dryMoveSpec` against the loop's
initial filesystem state. -/
lemma processAll_dry {destRoot : Path} :
    ∀ {cands : List Path} {fs : FS} {dests : List Path} {fs' : FS},
      processAll fs cands destRoot true = .ok (dests, fs') →
      fs'.files = fs.files ∧
      (∀ q ∈ fs.dirs, q ∈ fs'.dirs) ∧
      (∀ q ∈ fs'.dirs, q ∈ fs.dirs ∨
        ∃ c ∈ cands, q = destRoot ++ [extKey (c.getLastD "")]) ∧
      List.Forall₂ (dryMoveSpec fs destRoot) cands dests := by
  intro cands
  induction cands with
  | nil =>
    intro fs dests fs' h
    simp only [processAll] at h
    rw [Except.ok.injEq, Prod.mk.injEq] at h
    obtain ⟨h1, h2⟩ := h
    subst h1; subst h2
    exact ⟨rfl, fun q hq => hq, fun q hq => Or.inl hq, List.Forall₂.nil⟩
  | cons c rest ih =>
    intro fs dests fs' h
    simp only [processAll] at h
    cases hmv : move_file fs c destRoot true with
    | error f => simp only [hmv] at h; cases h
    | ok pr =>
      obtain ⟨d, fs1⟩ := pr
      simp only [hmv] at h
      cases hpa : processAll fs1 rest destRoot true with
      | error f => simp only [hpa] at h; cases h
      | ok pr2 =>
        obtain ⟨ds, fs2⟩ := pr2
        simp only [hpa] at h
        rw [Except.ok.injEq, Prod.mk.injEq] at h
        obtain ⟨hds, hfs2⟩ := h
        subst hds; subst hfs2
        obtain ⟨name, hl, hf1, hd1, hcls1, hspec⟩ := move_file_dry_elim hmv
        have hname : c.getLastD "" = name := getLastD_of_getLast? hl
        obtain ⟨hf2, hd2, hcls2, hF⟩ := ih hpa
        have hnew : ∀ q ∈ fs1.dirs, q ∈ fs.dirs ∨ q.length ≤ destRoot.length + 1 := by
          intro q hq
          rcases hcls1 q hq with h | h
          · exact Or.inl h
          · right; rw [h]; simp
        refine ⟨hf2.trans hf1, fun q hq => hd2 q (hd1 q hq), ?_, ?_⟩
        · intro q hq
          rcases hcls2 q hq with hq1 | ⟨c', hc', he⟩
          · rcases hcls1 q hq1 with hq2 | hq2
            · exact Or.inl hq2
            · exact Or.inr ⟨c, List.mem_cons_self _ _, by rw [hname]; exact hq2⟩
          · exact Or.inr ⟨c', List.mem_cons_of_mem _ hc', he⟩
        · refine List.Forall₂.cons hspec ?_
          exact List.Forall₂.imp
            (fun c' d' hrel => (dryMoveSpec_congr hf1 hd1 hnew).mp hrel) hF

/-! ## iter_files and sort_files eliminations -/

lemma mem_iter_files {fs : FS} {root destRoot : Path} {iD iC : Bool} {p : Path}
    (h : p ∈ iter_files fs root destRoot iD iC) :
    ∃ dir name, p = dir ++ [name] ∧ root <+: dir ∧
      Yieldable fs root destRoot (destRoot == root) iD iC dir name :=
  mem_iterFromN h

lemma iter_files_subset_files {fs : FS} {root destRoot : Path} {iD iC : Bool} {p : Path}
    (h : p ∈ iter_files fs root destRoot iD iC) : p ∈ fs.files := by
  obtain ⟨dir, name, rfl, _, hy⟩ := mem_iter_files h
  exact hy.1

lemma iter_files_nodup {fs : FS} {root destRoot : Path} {iD iC : Bool}
    (h : fs.files.Nodup) : (iter_files fs root destRoot iD iC).Nodup :=
  iterFromN_nodup h _ _

/-- No candidate returned by `iter_files` already sits in its own extension
bucket: in in-place mode the filter of lines 93-97 removes it, and
otherwise it would lie under the destination tree and be removed by the
filter of line 91. -/
lemma iter_files_no_skip {fs : FS} {root destRoot : Path} {iD iC : Bool} {p : Path}
    (h : p ∈ iter_files fs root destRoot iD iC) :
    p.dropLast ≠ destRoot ++ [extKey (p.getLastD "")] := by
  obtain ⟨dir, name, rfl, _, hy⟩ := mem_iter_files h
  have hname : (dir ++ [name]).getLastD "" = name := by simp
  rw [List.dropLast_concat, hname]
  cases hir : (destRoot == root) with
  | true => exact hy.2.2.2.2.2 hir
  | false =>
    intro heq
    have hrel := hy.2.2.2.2.1 hir
    have hpre : destRoot <+: dir ++ [name] := by
      rw [heq, List.append_assoc]
      exact List.prefix_append _ _
    rw [is_relative_to_path, List.isPrefixOf_iff_prefix.mpr hpre] at hrel
    cases hrel

/-- Elimination for a successful `sort_files`: the root was a directory,
the destination-root `mkdir` succeeded, the returned candidate list is the
traversal over the post-mkdir state, and the loop completed on it. -/
lemma sort_files_ok_elim {cfg : SortConfig} {fs : FS} {cands dests : List Path} {fs' : FS}
    (h : sort_files cfg fs = .ok (cands, dests, fs')) :
    ∃ fs1, isDirB fs cfg.root = true ∧
      mkdirParents fs cfg.destination_root = .ok fs1 ∧
      cands = iter_files fs1 cfg.root cfg.destination_root
        cfg.include_dotfiles cfg.include_code ∧
      processAll fs1 cands cfg.destination_root cfg.dry_run = .ok (dests, fs') := by
  unfold sort_files at h
  split at h
  · cases h
  · next hdir =>
    have hdir' : isDirB fs cfg.root = true := by
      revert hdir
      cases isDirB fs cfg.root <;> simp
    cases hmk : mkdirParents fs cfg.destination_root with
    | error f => simp only [hmk] at h; cases h
    | ok fs1 =>
      simp only [hmk] at h
      cases hpa : processAll fs1
          (iter_files fs1 cfg.root cfg.destination_root
            cfg.include_dotfiles cfg.include_code)
          cfg.destination_root cfg.dry_run with
      | error f => simp only [hpa] at h; cases h
      | ok pr =>
        obtain ⟨ds, fs2⟩ := pr
        simp only [hpa] at h
        rw [Except.ok.injEq, Prod.mk.injEq] at h
        obtain ⟨h1, h23⟩ := h
        rw [Prod.mk.injEq] at h23
        obtain ⟨h2, h3⟩ := h23
        subst h1; subst h2; subst h3
        exact ⟨fs1, hdir', rfl, rfl, hpa⟩

lemma forall₂_mem_right {α β : Type} {R : α → β → Prop} {l₁ : List α} {l₂ : List β}
    (h : List.Forall₂ R l₁ l₂) {x : β} (hx : x ∈ l₂) : ∃ c ∈ l₁, R c x := by
  induction h with
  | nil => cases hx
  | cons hr _ ih =>
    rcases List.mem_cons.mp hx with rfl | hx'
    · exact ⟨_, List.mem_cons_self _ _, hr⟩
    · obtain ⟨c, hc, hrc⟩ := ih hx'
      exact ⟨c, List.mem_cons_of_mem _ hc, hrc⟩

lemma forall₂_conj {α β : Type} {R S : α → β → Prop} {l₁ : List α} {l₂ : List β}
    (hR : List.Forall₂ R l₁ l₂) (hS : List.Forall₂ S l₁ l₂) :
    List.Forall₂ (fun a b => R a b ∧ S a b) l₁ l₂ := by
  induction hR with
  | nil => exact .nil
  | cons hr _ ih =>
    cases hS with
    | cons hs hts => exact .cons ⟨hr, hs⟩ (ih hts)

/-! ## The claims -/

/-- **C1**: after a completed non-dry-run pass of `sort_files`, every
candidate file (each file of the source tree that survived the filter
pipeline) resides directly under `destination_root/<ext>/`, where `<ext>`
is the extension key of its original name (`extKey`: lower-cased extension
without the leading dot, or `"no_ext"`): pairing each returned candidate
with the destination `move_file` realized for it, the destination is a
file of the final state whose parent directory is exactly that bucket. -/
theorem C1_files_end_in_extension_buckets (cfg : SortConfig) (fs : FS)
    (cands dests : List Path) (fs' : FS)
    (hdry : cfg.dry_run = false) (hnd : fs.files.Nodup)
    (hrun : sort_files cfg fs = .ok (cands, dests, fs')) :
    List.Forall₂ (fun c d => d ∈ fs'.files ∧
      d.dropLast = cfg.destination_root ++ [extKey (c.getLastD "")]) cands dests := by
  obtain ⟨fs1, _, hmk, hcands, hpa⟩ := sort_files_ok_elim hrun
  obtain ⟨hmf, _, _⟩ := mkdirParents_ok hmk
  rw [hdry] at hpa
  have hnd1 : fs1.files.Nodup := by rw [hmf]; exact hnd
  have hcnd : cands.Nodup := by rw [hcands]; exact iter_files_nodup hnd1
  have hsub : ∀ c ∈ cands, c ∈ fs1.files := by
    intro c hc
    rw [hcands] at hc
    exact iter_files_subset_files hc
  exact (processAll_live hnd1 hcnd hsub hpa).2.1

/-- Witness for C1, on the spec's own example tree: `a.txt` and `b.TXT`
are the candidates and both end up directly under `dest/txt/`. -/
theorem C1_files_end_in_extension_buckets_witness :
    List.Forall₂ (fun c d => d ∈ (FS.mk
        [["r", "dest", "txt", "b.TXT"], ["r", "dest", "txt", "a.txt"],
         ["r", ".secret"], ["r", "notes.py"], ["r", "README.md"]]
        [["r", "dest", "txt"], ["r", "dest"], ["r"]]).files ∧
      d.dropLast = (SortConfig.mk ["r"] (.rel ["dest"])
        false false false false).destination_root ++ [extKey (c.getLastD "")])
      [["r", "a.txt"], ["r", "b.TXT"]]
      [["r", "dest", "txt", "a.txt"], ["r", "dest", "txt", "b.TXT"]] :=
  C1_files_end_in_extension_buckets
    (SortConfig.mk ["r"] (.rel ["dest"]) false false false false)
    (FS.mk [["r", "a.txt"], ["r", "b.TXT"], ["r", ".secret"],
      ["r", "notes.py"], ["r", "README.md"]] [["r"]])
    _ _ _ rfl (by decide) (by decide)

/-- **C3**: when the destination root is strictly nested inside the source
root, `iter_files` never yields a path inside (or equal to) the
destination tree, and the pruning of `dirnames` keeps exactly the
subdirectories that do not lie under (or at) the destination root, decided
by segment-wise containment of resolved paths (`is_relative_to_path`,
i.e. `Path.relative_to`), not by string matching.  The embedded traversal
is a total function, so it terminates by construction. -/
theorem C3_destination_tree_excluded (fs : FS) (root destRoot : Path) (iD iC : Bool)
    (hnest : root <+: destRoot) (hne : destRoot ≠ root) :
    (∀ p ∈ iter_files fs root destRoot iD iC, ¬ destRoot <+: p) ∧
    (∀ d c, c ∈ prunedKids fs destRoot false d ↔
      (c ∈ childDirs fs d ∧ ¬ destRoot <+: d ++ [c])) := by
  constructor
  · intro p hp hcon
    obtain ⟨dir, name, rfl, _, hy⟩ := mem_iter_files hp
    have hir : (destRoot == root) = false := by
      rw [beq_eq_false_iff_ne]
      exact hne
    have hrel := hy.2.2.2.2.1 hir
    rw [is_relative_to_path, List.isPrefixOf_iff_prefix.mpr hcon] at hrel
    cases hrel
  · intro d c
    unfold prunedKids
    rw [if_neg (by simp)]
    rw [List.mem_filter]
    constructor
    · rintro ⟨h1, h2⟩
      refine ⟨h1, ?_⟩
      rw [Bool.and_eq_true] at h2
      intro hcon
      have h3 := h2.1
      rw [is_relative_to_path, List.isPrefixOf_iff_prefix.mpr hcon] at h3
      cases h3
    · rintro ⟨h1, h2⟩
      refine ⟨h1, ?_⟩
      rw [Bool.and_eq_true]
      constructor
      · rw [Bool.not_eq_true']
        rw [is_relative_to_path]
        rw [← Bool.not_eq_true (destRoot.isPrefixOf (d ++ [c]))]
        intro hc
        exact h2 (List.isPrefixOf_iff_prefix.mp hc)
      · rw [Bool.not_eq_true']
        rw [beq_eq_false_iff_ne]
        intro he
        exact h2 (he ▸ List.prefix_refl _)

/-- Witness for C3: with `dest = r/d` nested in root `r`, the yielded file
`r/dx/s.txt` (from a sibling whose name shares the string prefix "d") is
not inside the destination tree. -/
theorem C3_destination_tree_excluded_witness :
    ¬ (["r", "d"] : Path) <+: ["r", "dx", "s.txt"] :=
  (C3_destination_tree_excluded
    (FS.mk [["r", "a.txt"], ["r", "d", "txt", "old.txt"], ["r", "dx", "s.txt"]]
      [["r"], ["r", "d"]])
    ["r"] ["r", "d"] false false (by decide) (by decide)).1
    ["r", "dx", "s.txt"] (by decide)

/-- **C6**: for every flag configuration, a file directly inside the source
root whose name case-insensitively equals "readme.md" is never yielded by
`iter_files`, hence never moved. -/
theorem C6_root_readme_never_moved (fs : FS) (root destRoot : Path)
    (iD iC : Bool) (p : Path) (hp : p ∈ iter_files fs root destRoot iD iC) :
    ¬ (p.dropLast = root ∧ pyLower (p.getLastD "") = "readme.md") := by
  obtain ⟨dir, name, rfl, _, hy⟩ := mem_iter_files hp
  have hname : (dir ++ [name]).getLastD "" = name := by simp
  rw [List.dropLast_concat, hname]
  exact hy.2.2.2.1

/-- Witness for C6: a yielded file is never the root README. -/
theorem C6_root_readme_never_moved_witness :
    ¬ ((["r", "a.txt"] : Path).dropLast = ["r"] ∧
      pyLower ((["r", "a.txt"] : Path).getLastD "") = "readme.md") :=
  C6_root_readme_never_moved
    (FS.mk [["r", "a.txt"], ["r", "README.md"]] [["r"]])
    ["r"] ["r", "dest"] false false ["r", "a.txt"] (by decide)

/-- **C7**: when the configured root is missing or not a directory,
`sort_files` fails fatally (the `SystemExit` of line 143, modelled as
`.error`) and the error state is the untouched initial filesystem: no
destination directory was created and no file was moved. -/
theorem C7_invalid_root_fails_before_mutation (cfg : SortConfig) (fs : FS)
    (h : isDirB fs cfg.root = false) : sort_files cfg fs = .error fs := by
  unfold sort_files
  rw [h]
  rfl

/-- Witness for C7: a root that is not a directory of the state. -/
theorem C7_invalid_root_fails_before_mutation_witness :
    sort_files (SortConfig.mk ["r"] (.rel ["d"]) false false false false)
      (FS.mk [["s", "a.txt"]] [["s"]]) = .error (FS.mk [["s", "a.txt"]] [["s"]]) :=
  C7_invalid_root_fails_before_mutation _ _ (by decide)

lemma lastDotIdx_eq_none {cs : List Char} (h : '.' ∉ cs) : lastDotIdx cs = none := by
  induction cs with
  | nil => rfl
  | cons c cs ih =>
    simp only [lastDotIdx, ih (fun hm => h (List.mem_cons_of_mem _ hm))]
    have hc : ¬ (c = '.') := fun he => h (by rw [he]; exact List.mem_cons_self _ _)
    rw [if_neg hc]

/-- **C9**: a file name that begins with a dot and contains no later dot
has an empty `pathlib` suffix, so its extension key is the sentinel
`"no_ext"`, and any successful `move_file` on such a file reports a path
directly inside the `no_ext` bucket (this is the key both `move_file` line
119 and the in-place filter of lines 93-94 compute). -/
theorem C9_dotfile_without_extension_uses_no_ext (name : String) (rest : List Char)
    (hname : name.toList = '.' :: rest) (hnd : '.' ∉ rest) :
    extKey name = "no_ext" ∧
    ∀ (fs fs' : FS) (src destRoot p : Path) (dr : Bool),
      src.getLast? = some name →
      move_file fs src destRoot dr = .ok (p, fs') →
      p.dropLast = destRoot ++ ["no_ext"] := by
  have hlast : lastDotIdx name.toList = some 0 := by
    rw [hname]
    simp only [lastDotIdx, lastDotIdx_eq_none hnd]
    simp
  have hsuffix : pySuffix name = "" := by
    unfold pySuffix
    rw [hlast]
    simp
  have hext : extKey name = "no_ext" := by
    unfold extKey
    rw [hsuffix]
    rfl
  refine ⟨hext, ?_⟩
  intro fs fs' src destRoot p dr hl hmv
  obtain ⟨name', hl', hdrop⟩ := move_file_ok_dropLast hmv
  rw [hl] at hl'
  injection hl' with he
  subst he
  rwa [hext] at hdrop

/-- Witness for C9: `.secret` goes to the `no_ext` bucket. -/
theorem C9_dotfile_without_extension_uses_no_ext_witness :
    extKey ".secret" = "no_ext" ∧
    (["r", "no_ext", ".secret"] : Path).dropLast = ["r"] ++ ["no_ext"] := by
  have h := C9_dotfile_without_extension_uses_no_ext ".secret"
    ['s', 'e', 'c', 'r', 'e', 't'] (by decide) (by decide)
  refine ⟨h.1, ?_⟩
  exact h.2 (FS.mk [["r", ".secret"]] [["r"]])
    (FS.mk [["r", "no_ext", ".secret"]] [["r", "no_ext"], ["r"]])
    ["r", ".secret"] ["r"] ["r", "no_ext", ".secret"] false (by decide) (by decide)

/-- Counterexample for **C8**: the claim says a candidate that vanished
before its move is skipped with a warning and processing continues.  In
the code (sorter.py lines 127-134 and 158-159) there is no exception
handling: `shutil.move` raises `FileNotFoundError`, modelled as `.error`,
and the loop stops, leaving the remaining candidate unprocessed. -/
theorem C8_vanished_file_counterexample :
    move_file (FS.mk [["r", "other.md"]] [["r"]]) ["r", "ghost.txt"] ["r", "d"] false =
      .error (FS.mk [["r", "other.md"]] [["r", "d", "txt"], ["r"]]) ∧
    processAll (FS.mk [["r", "other.md"]] [["r"]])
      [["r", "ghost.txt"], ["r", "other.md"]] ["r", "d"] false =
      .error (FS.mk [["r", "other.md"]] [["r", "d", "txt"], ["r"]]) := by
  constructor
  · rfl
  · rfl

/-- **C8 (amended)**: a candidate file that no longer exists at the moment
its live move is attempted makes `move_file` fail with an unhandled error
(no skip is performed), and an erroring `move_file` aborts the processing
loop, so the remaining candidates are not processed. -/
theorem C8_amended_vanished_file_aborts :
    (∀ (fs : FS) (src destRoot : Path) (name : String),
      src.getLast? = some name →
      src.dropLast ≠ destRoot ++ [extKey name] →
      src ∉ fs.files →
      ∀ (p : Path) (fs' : FS), move_file fs src destRoot false ≠ .ok (p, fs')) ∧
    (∀ (fs f : FS) (c : Path) (rest : List Path) (destRoot : Path),
      move_file fs c destRoot false = .error f →
      processAll fs (c :: rest) destRoot false = .error f) := by
  constructor
  · intro fs src destRoot name hl hns hnm p fs' h
    obtain ⟨name', fsm, hl', hmk, hbr⟩ := move_file_ok_elim h
    rw [hl] at hl'
    injection hl' with he
    subst he
    rcases hbr with ⟨hskip, _, _⟩ | ⟨_, _, hcase⟩
    · exact hns hskip
    · rcases hcase with ⟨hdr, _⟩ | ⟨_, hsrc, _⟩
      · cases hdr
      · refine hnm ?_
        rw [← (mkdirParents_ok hmk).1]
        exact hsrc
  · intro fs f c rest destRoot h
    simp only [processAll, h]

/-- Witness for the amended C8. -/
theorem C8_amended_vanished_file_aborts_witness :
    move_file (FS.mk [["r", "b.md"]] [["r"]]) ["r", "gone.txt"] ["r", "d"] false ≠
      .ok (["r", "d", "txt", "gone.txt"],
        FS.mk [["r", "b.md"]] [["r", "d", "txt"], ["r"]]) :=
  C8_amended_vanished_file_aborts.1 (FS.mk [["r", "b.md"]] [["r"]])
    ["r", "gone.txt"] ["r", "d"] "gone.txt" (by decide) (by decide) (by decide)
    ["r", "d", "txt", "gone.txt"] (FS.mk [["r", "b.md"]] [["r", "d", "txt"], ["r"]])

/-- **C4**: `safe_destination` returns `bucket/filename` when that path
does not exist, and otherwise `bucket/"stem (n)suffix"` for the smallest
`n ≥ 1` whose path does not exist; the returned path never refers to an
existing path, so a move never silently overwrites an existing file.  In
particular (second conjunct), when two files named `x.txt` map to the same
bucket in one live run, the second is realized as `x (1).txt`. -/
theorem C4_safe_destination_avoids_collisions :
    (∀ (fs : FS) (dest_dir : Path) (filename : String) (p : Path),
      safe_destination fs dest_dir filename = some p →
      safeDestSpec fs dest_dir filename p ∧ existsPath fs p = false) ∧
    sort_files (SortConfig.mk ["r"] (.rel ["d"]) false false false false)
        (FS.mk [["r", "s", "x.txt"], ["r", "t", "x.txt"]] [["r"]]) =
      .ok ([["r", "s", "x.txt"], ["r", "t", "x.txt"]],
        [["r", "d", "txt", "x.txt"], ["r", "d", "txt", "x (1).txt"]],
        FS.mk [["r", "d", "txt", "x (1).txt"], ["r", "d", "txt", "x.txt"]]
          [["r", "d", "txt"], ["r", "d"], ["r"]]) := by
  constructor
  · intro fs dd filename p h
    exact ⟨safe_destination_spec h, safeDestSpec_not_exists (safe_destination_spec h)⟩
  · rfl

/-- Witness for C4: with `txt/x.txt` already present, the search returns
`txt/x (1).txt`, a non-existing path. -/
theorem C4_safe_destination_avoids_collisions_witness :
    safeDestSpec (FS.mk [["d", "txt", "x.txt"]] [["d", "txt"]]) ["d", "txt"] "x.txt"
      ["d", "txt", "x (1).txt"] ∧
    existsPath (FS.mk [["d", "txt", "x.txt"]] [["d", "txt"]])
      ["d", "txt", "x (1).txt"] = false :=
  C4_safe_destination_avoids_collisions.1
    (FS.mk [["d", "txt", "x.txt"]] [["d", "txt"]]) ["d", "txt"] "x.txt"
    ["d", "txt", "x (1).txt"] (by decide)

/-- Counterexample for **C2**: the claim says a dry run leaves the
filesystem completely unchanged and creates no directory.  But sorter.py
line 145 creates the destination root and line 121 creates the bucket
directory regardless of `dry_run`: after this dry run, the directory list
has grown by `r/d` and `r/d/txt` (the files are indeed untouched). -/
theorem C2_dry_run_counterexample :
    sort_files (SortConfig.mk ["r"] (.rel ["d"]) false false true false)
        (FS.mk [["r", "a.txt"]] [["r"]]) =
      .ok ([["r", "a.txt"]], [["r", "d", "txt", "a.txt"]],
        FS.mk [["r", "a.txt"]] [["r", "d", "txt"], ["r", "d"], ["r"]]) ∧
    (FS.mk [["r", "a.txt"]] [["r", "d", "txt"], ["r", "d"], ["r"]]).dirs ≠
      (FS.mk [["r", "a.txt"]] [["r"]]).dirs := by
  exact ⟨rfl, by decide⟩

/-- **C2 (amended)**: in dry-run mode no file is moved (the final file
list equals the initial one) and each candidate's computed source→target
pair is reported, the target being returned as if the move had happened
(`dryMoveSpec` against the initial state); however the filesystem is not
completely untouched: the destination root and the candidates' bucket
directories are created even in dry-run mode — and those are the only
directories that can appear. -/
theorem C2_amended_dry_run_moves_nothing_but_mkdirs (cfg : SortConfig) (fs : FS)
    (cands dests : List Path) (fs' : FS)
    (hdry : cfg.dry_run = true)
    (hrun : sort_files cfg fs = .ok (cands, dests, fs')) :
    fs'.files = fs.files ∧
    (∀ q ∈ fs.dirs, q ∈ fs'.dirs) ∧
    (∀ q ∈ fs'.dirs, q ∈ fs.dirs ∨ q = cfg.destination_root ∨
      ∃ c ∈ cands, q = cfg.destination_root ++ [extKey (c.getLastD "")]) ∧
    List.Forall₂ (dryMoveSpec fs cfg.destination_root) cands dests := by
  obtain ⟨fs1, _, hmk, hcands, hpa⟩ := sort_files_ok_elim hrun
  obtain ⟨hmf, hmd, hmcls⟩ := mkdirParents_ok hmk
  rw [hdry] at hpa
  obtain ⟨hf2, hd2, hcls2, hF⟩ := processAll_dry hpa
  refine ⟨hf2.trans hmf, fun q hq => hd2 q (hmd q hq), ?_, ?_⟩
  · intro q hq
    rcases hcls2 q hq with h1 | ⟨c, hc, he⟩
    · rcases hmcls q h1 with h2 | h2
      · exact Or.inl h2
      · exact Or.inr (Or.inl h2)
    · exact Or.inr (Or.inr ⟨c, hc, he⟩)
  · refine List.Forall₂.imp (fun c d hrel => ?_) hF
    refine (dryMoveSpec_congr hmf hmd ?_).mp hrel
    intro q hq
    rcases hmcls q hq with h1 | h1
    · exact Or.inl h1
    · right
      rw [h1]
      omega

/-- Witness for the amended C2: the dry run of the counterexample state
moves no file and reports the computed target. -/
theorem C2_amended_dry_run_moves_nothing_but_mkdirs_witness :
    (FS.mk [["r", "a.txt"]] [["r", "d", "txt"], ["r", "d"], ["r"]]).files =
      (FS.mk [["r", "a.txt"]] [["r"]]).files ∧
    List.Forall₂ (dryMoveSpec (FS.mk [["r", "a.txt"]] [["r"]])
      (SortConfig.mk ["r"] (.rel ["d"]) false false true false).destination_root)
      [["r", "a.txt"]] [["r", "d", "txt", "a.txt"]] := by
  have h := C2_amended_dry_run_moves_nothing_but_mkdirs
    (SortConfig.mk ["r"] (.rel ["d"]) false false true false)
    (FS.mk [["r", "a.txt"]] [["r"]])
    [["r", "a.txt"]] [["r", "d", "txt", "a.txt"]]
    (FS.mk [["r", "a.txt"]] [["r", "d", "txt"], ["r", "d"], ["r"]])
    rfl (by decide)
  exact ⟨h.1, h.2.2.2⟩

/-- **C10**: in dry-run mode every candidate's target is computed by
`safe_destination` against the initial, unmodified file state, so two
candidates with the same file name (hence the same bucket) receive the
identical reported target; in a completed live run the realized targets
are pairwise distinct, so the numeric-suffix rename appears only in a
live run. -/
theorem C10_dry_run_targets_against_initial_state :
    (∀ (cfg : SortConfig) (fs : FS) (cands dests : List Path) (fs' : FS),
      cfg.dry_run = true →
      sort_files cfg fs = .ok (cands, dests, fs') →
      ∀ (i j : Nat) (hi : i < cands.length) (hj : j < cands.length)
        (hi' : i < dests.length) (hj' : j < dests.length),
        (cands.get ⟨i, hi⟩).getLast? = (cands.get ⟨j, hj⟩).getLast? →
        dests.get ⟨i, hi'⟩ = dests.get ⟨j, hj'⟩) ∧
    (∀ (cfg : SortConfig) (fs : FS) (cands dests : List Path) (fs' : FS),
      cfg.dry_run = false → fs.files.Nodup →
      sort_files cfg fs = .ok (cands, dests, fs') →
      ∀ (i j : Nat) (hi : i < dests.length) (hj : j < dests.length),
        i ≠ j → dests.get ⟨i, hi⟩ ≠ dests.get ⟨j, hj⟩) := by
  constructor
  · intro cfg fs cands dests fs' hdry hrun i j hi hj hi' hj' hnames
    obtain ⟨fs1, _, hmk, hcands, hpa⟩ := sort_files_ok_elim hrun
    rw [hdry] at hpa
    obtain ⟨_, _, _, hF⟩ := processAll_dry hpa
    have hget := (List.forall₂_iff_get.mp hF).2
    obtain ⟨ni, hni, bri⟩ := hget i hi hi'
    obtain ⟨nj, hnj, brj⟩ := hget j hj hj'
    have hmemi : cands.get ⟨i, hi⟩ ∈ iter_files fs1 cfg.root cfg.destination_root
        cfg.include_dotfiles cfg.include_code := by
      rw [← hcands]
      exact List.get_mem _ _ _
    have hmemj : cands.get ⟨j, hj⟩ ∈ iter_files fs1 cfg.root cfg.destination_root
        cfg.include_dotfiles cfg.include_code := by
      rw [← hcands]
      exact List.get_mem _ _ _
    have hnsi := iter_files_no_skip hmemi
    have hnsj := iter_files_no_skip hmemj
    rw [getLastD_of_getLast? hni] at hnsi
    rw [getLastD_of_getLast? hnj] at hnsj
    rcases bri with ⟨hsk, _⟩ | ⟨_, hspeci⟩
    · exact absurd hsk hnsi
    rcases brj with ⟨hsk, _⟩ | ⟨_, hspecj⟩
    · exact absurd hsk hnsj
    have hn : ni = nj := by
      rw [hni, hnj] at hnames
      injection hnames
    subst hn
    exact safeDestSpec_unique hspeci hspecj
  · intro cfg fs cands dests fs' hdry hnd hrun i j hi hj hij heq
    obtain ⟨fs1, _, hmk, hcands, hpa⟩ := sort_files_ok_elim hrun
    obtain ⟨hmf, _, _⟩ := mkdirParents_ok hmk
    rw [hdry] at hpa
    have hnd1 : fs1.files.Nodup := by rw [hmf]; exact hnd
    have hG := processAll_live hnd1 (by rw [hcands]; exact iter_files_nodup hnd1)
      (fun c hc => by rw [hcands] at hc; exact iter_files_subset_files hc) hpa
    have hDnd := hG.2.2.2.2.2.1
    have hfin := (List.Nodup.get_inj_iff hDnd).mp heq
    rw [Fin.mk.injEq] at hfin
    exact hij hfin

/-- Witness for C10: in a dry run over two files both named `x.txt`, both
reports name the identical target `r/d/txt/x.txt`. -/
theorem C10_dry_run_targets_against_initial_state_witness :
    ([(["r", "d", "txt", "x.txt"] : Path), ["r", "d", "txt", "x.txt"]].get
      ⟨0, by decide⟩) =
    ([(["r", "d", "txt", "x.txt"] : Path), ["r", "d", "txt", "x.txt"]].get
      ⟨1, by decide⟩) :=
  C10_dry_run_targets_against_initial_state.1
    (SortConfig.mk ["r"] (.rel ["d"]) false false true false)
    (FS.mk [["r", "s", "x.txt"], ["r", "t", "x.txt"]] [["r"]])
    [["r", "s", "x.txt"], ["r", "t", "x.txt"]]
    [["r", "d", "txt", "x.txt"], ["r", "d", "txt", "x.txt"]]
    (FS.mk [["r", "s", "x.txt"], ["r", "t", "x.txt"]]
      [["r", "d", "txt"], ["r", "d"], ["r"]])
    rfl (by decide) 0 1 (by decide) (by decide) (by decide) (by decide) (by decide)

/-- Counterexample for **C5**: idempotence of in-place sorting fails when a
collision rename changes a name's extension key.  In-place root `r` holds
`a.` (empty `pathlib` suffix, bucket `no_ext`) while `no_ext/a.` already
exists, so run 1 renames the moved file to `no_ext/a. (1)`.  But
`pathlib` gives the name `a. (1)` the suffix `. (1)`, so its bucket is
` (1)`, not `no_ext`: run 2 finds it not "already sorted" and moves it
again — the second run performs a move instead of zero moves. -/
theorem C5_second_run_moves_again_counterexample :
    sort_files (SortConfig.mk ["r"] (.rel []) false false false false)
        (FS.mk [["r", "a."], ["r", "no_ext", "a."]] [["r"], ["r", "no_ext"]]) =
      .ok ([["r", "a."]], [["r", "no_ext", "a. (1)"]],
        FS.mk [["r", "no_ext", "a. (1)"], ["r", "no_ext", "a."]]
          [["r"], ["r", "no_ext"]]) ∧
    sort_files (SortConfig.mk ["r"] (.rel []) false false false false)
        (FS.mk [["r", "no_ext", "a. (1)"], ["r", "no_ext", "a."]]
          [["r"], ["r", "no_ext"]]) =
      .ok ([["r", "no_ext", "a. (1)"]], [["r", " (1)", "a. (1)"]],
        FS.mk [["r", " (1)", "a. (1)"], ["r", "no_ext", "a."]]
          [["r", " (1)"], ["r"], ["r", "no_ext"]]) ∧
    ([(["r", "no_ext", "a. (1)"] : Path)] ≠ ([] : List Path)) := by
  refine ⟨rfl, rfl, by decide⟩

/-- **C5 (amended)**: in in-place mode a second run after a completed
non-dry-run pass performs zero additional moves — the second `sort_files`
returns empty candidate and destination lists and the unchanged state —
provided every file moved by the first run kept its extension key
(`extKey` of the realized name equals `extKey` of the original name).
The proviso holds whenever no collision rename occurs, and a rename
`x.ext → x (1).ext` also preserves the key; it fails only for names such
as `a.` whose rename `a. (1)` acquires the suffix `. (1)` (see the
counterexample). -/
theorem C5_amended_in_place_idempotent (cfg : SortConfig) (fs : FS)
    (cands dests : List Path) (fs₁ : FS)
    (hdry : cfg.dry_run = false)
    (hinplace : cfg.destination_root = cfg.root)
    (hroot : cfg.root ∈ fs.dirs)
    (hnd : fs.files.Nodup)
    (hrun : sort_files cfg fs = .ok (cands, dests, fs₁))
    (hext : List.Forall₂ (fun c d => extKey (d.getLastD "") = extKey (c.getLastD ""))
      cands dests) :
    sort_files cfg fs₁ = .ok ([], [], fs₁) := by
  obtain ⟨fs1, hdir, hmk, hcands, hpa⟩ := sort_files_ok_elim hrun
  have hmk' : mkdirParents fs cfg.destination_root = .ok fs := by
    rw [hinplace]
    exact mkdirParents_of_isDir hdir
  rw [hmk'] at hmk
  injection hmk with hfs1
  subst hfs1
  rw [hdry] at hpa
  have hcnd : cands.Nodup := by rw [hcands]; exact iter_files_nodup hnd
  have hsub : ∀ c ∈ cands, c ∈ fs.files := fun c hc => by
    rw [hcands] at hc
    exact iter_files_subset_files hc
  obtain ⟨G1, G2, G3, G4, G5, G6, G7⟩ := processAll_live hnd hcnd hsub hpa
  have hroot1 : cfg.root ∈ fs₁.dirs := G7 _ hroot
  have hdir1 : isDirB fs₁ cfg.root = true := by
    unfold isDirB
    rw [Bool.or_eq_true]
    left
    rw [List.any_eq_true]
    exact ⟨cfg.root, hroot1, List.isPrefixOf_iff_prefix.mpr (List.prefix_refl _)⟩
  have hmk1 : mkdirParents fs₁ cfg.destination_root = .ok fs₁ := by
    rw [hinplace]
    exact mkdirParents_of_isDir hdir1
  have hir : (cfg.destination_root == cfg.root) = true := by
    rw [beq_iff_eq]
    exact hinplace
  have hempty : iter_files fs₁ cfg.root cfg.destination_root
      cfg.include_dotfiles cfg.include_code = [] := by
    rw [List.eq_nil_iff_forall_not_mem]
    intro p hp
    obtain ⟨dir, name, rfl, hpre, hy⟩ := mem_iter_files hp
    rw [hir] at hy
    have hyskip : dir ≠ cfg.destination_root ++ [extKey name] := hy.2.2.2.2.2 rfl
    rcases G3 _ hy.1 with hind | ⟨hmem0, hncand⟩
    · obtain ⟨c, _, hrel⟩ := forall₂_mem_right (forall₂_conj G2 hext) hind
      refine hyskip ?_
      have h2 := hrel.1.2
      rw [List.dropLast_concat] at h2
      have hnm : (dir ++ [name]).getLastD "" = name := by simp
      rw [hnm] at hrel
      rw [h2, ← hrel.2]
    · have hy0 : Yieldable fs cfg.root cfg.destination_root true
          cfg.include_dotfiles cfg.include_code dir name :=
        ⟨hmem0, hy.2.1, hy.2.2.1, hy.2.2.2.1, hy.2.2.2.2.1, hy.2.2.2.2.2⟩
      have hfuel : dir.length ≤ cfg.root.length + (maxLen fs + 1) := by
        have hle := length_le_maxLen_of_file hmem0
        rw [List.length_append, List.length_singleton] at hle
        omega
      refine hncand ?_
      rw [hcands]
      unfold iter_files
      rw [hir]
      exact iterFromN_complete_inplace hy0 hpre hfuel
  simp [sort_files, hdir1, hmk1, hempty, processAll]

/-- Witness for the amended C5: a clean in-place run (no collision
renames) after which the second run does nothing. -/
theorem C5_amended_in_place_idempotent_witness :
    sort_files (SortConfig.mk ["r"] (.rel []) false false false false)
      (FS.mk [["r", "txt", "b.txt"]] [["r", "txt"], ["r"]]) =
      .ok ([], [], FS.mk [["r", "txt", "b.txt"]] [["r", "txt"], ["r"]]) :=
  C5_amended_in_place_idempotent
    (SortConfig.mk ["r"] (.rel []) false false false false)
    (FS.mk [["r", "b.txt"]] [["r"]])
    [["r", "b.txt"]] [["r", "txt", "b.txt"]]
    (FS.mk [["r", "txt", "b.txt"]] [["r", "txt"], ["r"]])
    rfl (by decide) (by decide) (by decide) (by decide)
    (List.Forall₂.cons (by decide) List.Forall₂.nil)

end Sortify
